import Mathlib

/-!
Verification of the `xdr_brk_enum` schema-to-codec compiler.

The crate derives serde `Serialize`/`Deserialize` implementations for a
tagged-union type: each variant is assigned a 32-bit discriminant (explicit
`= E`, implicit sequential, or a single `#[default_arm]` catch-all), a value
is encoded as a two-slot container `[u32 tag][payload]`, and decoding
dispatches on the tag with a linear chain of equality tests, falling back to
the default arm (or an unknown-discriminant error).

Following the spec's own modelling note (§9), code generation is embedded as
a pure function from a schema to encode/decode behaviour: the generated
program text is replaced by functions `encode` / `decode` over a wire model,
with discriminant expressions kept symbolic exactly as the resolver keeps
them (`syn::Expr` composed only by `(_ + 1)`).

Sources: `src/lib.rs` (`calculate_variants_with_discriminants`),
`src/ser.rs` (`generate_match_arm`), `src/deser.rs`
(`generate_deserialization_branch`), `tests/simple_enum.rs` (test schema).
The driver that builds `VariantInfo` values with `VariantDiscriminant`
(used by `ser.rs`/`deser.rs`), the schema validator, and the `visit_enum`
wiring of the branches are not present under `src/`; those parts are
modelled from the spec and marked as such on their definitions.
-/

namespace XdrEnum

/-- Symbolic constant expression, mirroring the crate's use of `syn::Expr`:
a literal (the resolver's initial `0`), an uninterpreted user expression
(e.g. `foo()` in the test schema), or the composition `(#e + 1)` built by
`parse_quote!` in `calculate_variants_with_discriminants`. The resolver never
evaluates expressions; evaluation happens only where the generated code uses
`(#e) as u32`. -/
inductive Expr where
  | lit : Nat → Expr
  | sym : Nat → Expr
  | add1 : Expr → Expr
deriving DecidableEq

/-- Evaluation of a symbolic expression given an environment assigning values
to the uninterpreted user constants (deferred to "wherever the contract is
finally realized", spec §4.2). -/
def evalExpr (env : Nat → Nat) : Expr → Nat
  | .lit n => n
  | .sym i => env i
  | .add1 e => evalExpr env e + 1

/-- 2^32, the modulus of Rust's `as u32` cast. -/
def U32_MOD : Nat := 2 ^ 32

/-- Field types that occur in the embedded schemas: unsigned integers of a
given bit width (`.uint 8` = `u8`, `.uint 32` = `u32`, ...) and `String`. -/
inductive Ty where
  | uint : Nat → Ty
  | str : Ty
deriving DecidableEq

/-- Runtime field values. An integer value carries its bit width. -/
inductive Val where
  | vint : Nat → Nat → Val
  | vstr : String → Val
deriving DecidableEq

/-- Well-typedness of a runtime value at a declared field type. -/
def Val.hasTy : Val → Ty → Bool
  | .vint w n, .uint w' => w == w' && decide (n < 2 ^ w')
  | .vstr _, .str => true
  | _, _ => false

/-- Rust's `v as u32` on an integer field value (used by the serializer for
the default arm). A `String` never reaches this cast in compiling code. -/
def valAsU32 : Val → Nat
  | .vint _ n => n % U32_MOD
  | .vstr _ => 0

/-- Rust's `discriminant as #ty` narrowing cast used by the default-arm
deserialization branch: `none` when the declared type admits no such cast
(the generated code would not compile). -/
def castTo : Ty → Nat → Option Val
  | .uint w, n => some (.vint w (n % 2 ^ w))
  | .str, _ => none

/-- Field shape of a variant: `Fields::Unit`, `Fields::Unnamed` (ordered
field types) or `Fields::Named` (ordered name/type pairs). -/
inductive FieldShape where
  | unit : FieldShape
  | positional : List Ty → FieldShape
  | named : List (String × Ty) → FieldShape
deriving DecidableEq

/-- The ordered field types of a shape; names are compile-time metadata. -/
def FieldShape.tys : FieldShape → List Ty
  | .unit => []
  | .positional ts => ts
  | .named fs => fs.map Prod.snd

/-- How a variant's discriminant is specified in the schema: an explicit
`= E` expression, implicit (no expression), or the `#[default_arm]` mark. -/
inductive DiscSpec where
  | explicitDisc : Expr → DiscSpec
  | implicitDisc : DiscSpec
  | defaultArm : DiscSpec
deriving DecidableEq

/-- One variant of the enum schema. -/
structure VariantSchema where
  name : String
  shape : FieldShape
  disc_spec : DiscSpec
deriving DecidableEq

/-- Resolved discriminant of a variant, as in `ser.rs`/`deser.rs`:
`Normal(expr)` for a resolved symbolic discriminant, `Default` for the
catch-all arm (which has no discriminant). -/
inductive VariantDiscriminant where
  | default : VariantDiscriminant
  | normal : Expr → VariantDiscriminant
deriving DecidableEq

/-- A variant together with its resolved discriminant (the crate's
`VariantInfo` consumed by `generate_match_arm` and
`generate_deserialization_branch`). -/
structure VariantInfo where
  variant : VariantSchema
  discriminant : VariantDiscriminant
deriving DecidableEq

/-- Loop body of `calculate_variants_with_discriminants` (`lib.rs:5-23`),
threading the symbolic `next_discriminant` (initially the literal `0`):
an explicit `= E` resolves to `E` and sets `next` to `(E + 1)`; an implicit
variant resolves to the current `next` and sets `next` to `(next + 1)`.
The `defaultArm` case is modelled from the spec (§4.2): the driver `lib.rs`
that builds `VariantInfo`/`VariantDiscriminant` values for `ser.rs` and
`deser.rs` is not under `src/`; per the spec a default arm resolves to no
discriminant and does not advance `next`. -/
def calcGo (next : Expr) : List VariantSchema → List VariantInfo
  | [] => []
  | v :: rest =>
    match v.disc_spec with
    | .defaultArm => ⟨v, .default⟩ :: calcGo next rest
    | .explicitDisc e => ⟨v, .normal e⟩ :: calcGo (.add1 e) rest
    | .implicitDisc => ⟨v, .normal next⟩ :: calcGo (.add1 next) rest

/-- `calculate_variants_with_discriminants` (`lib.rs:5-23`): resolve the
ordered variant list starting from the literal `0`. -/
def calculate_variants_with_discriminants (variants : List VariantSchema) :
    List VariantInfo :=
  calcGo (.lit 0) variants

/-- The symbolic `next_discriminant` state after processing a list of
variants (used to reason about the resolver's fold structure). -/
def nextAfter (next : Expr) : List VariantSchema → Expr
  | [] => next
  | v :: rest =>
    match v.disc_spec with
    | .defaultArm => nextAfter next rest
    | .explicitDisc e => nextAfter (.add1 e) rest
    | .implicitDisc => nextAfter (.add1 next) rest

/-- The wire form: a container of exactly two positional slots, a `u32`
tag and a payload holding the ordered tuple of field values (`[]` is the
zero-length marker written for unit payloads). Field names never occur. -/
structure Wire where
  tag : Nat
  payload : List Val
deriving DecidableEq

/-- A runtime value of the generated enum type: which variant (by position
in the schema) and the ordered field values. -/
structure EnumVal where
  variantIdx : Nat
  fields : List Val
deriving DecidableEq

/-- Does an ordered list of values fit an ordered list of declared types? -/
def valsMatch (vs : List Val) (ts : List Ty) : Bool :=
  vs.length == ts.length && (vs.zip ts).all fun p => p.1.hasTy p.2

/-- A value of the generated type is constructible for a schema when its
variant index is in range and its fields fit the variant's declared types. -/
def constructibleB (S : List VariantSchema) (V : EnumVal) : Bool :=
  match S[V.variantIdx]? with
  | some v => valsMatch V.fields v.shape.tys
  | none => false

/-- Encoding of one variant's value, from `generate_match_arm`
(`ser.rs:32-60`): a normal variant writes `(#discriminant) as u32` into
slot 0 and the ordered tuple of its field bindings into slot 1 (`&()` for
`Fields::Unit`); the default arm writes `*field as u32` — its single field's
runtime value — into slot 0 and `&()` into slot 1. -/
def encodeVariant (env : Nat → Nat) (info : VariantInfo) (vs : List Val) :
    Wire :=
  match info.discriminant with
  | .default => ⟨valAsU32 (vs.headD (.vint 32 0)), []⟩
  | .normal e => ⟨evalExpr env e % U32_MOD, vs⟩

/-- `Serialize::serialize` of the derived implementation: match on the value
and run the arm generated for its variant. -/
def encode (S : List VariantSchema) (env : Nat → Nat) (V : EnumVal) :
    Option Wire :=
  ((calculate_variants_with_discriminants S)[V.variantIdx]?).map
    fun info => encodeVariant env info V.fields

/-- Decode-time failures: `UnknownDiscriminant(tag)` from the generated
fall-through, a payload that does not fit the matched variant's declared
shape (serde `invalid_length` / type errors), and the `compile_error!`
emitted by `deser.rs:84-90` when the default arm has no field (generation
halts; no decoder exists). -/
inductive DecodeError where
  | unknownDiscriminant : Nat → DecodeError
  | payloadError : DecodeError
  | generationHalted : DecodeError
deriving DecidableEq

/-- Body of one normal deserialization branch once its tag test succeeded
(`deser.rs:93-116`): `Fields::Unit` reads the zero-length marker, the other
shapes read the ordered tuple of declared field types, then the variant is
constructed from the read fields in order. -/
def decodeVariantBody (j : Nat) (shape : FieldShape) (p : List Val) :
    Except DecodeError EnumVal :=
  match shape with
  | .unit => if p = [] then .ok ⟨j, []⟩ else .error .payloadError
  | .positional ts =>
      if valsMatch p ts then .ok ⟨j, p⟩ else .error .payloadError
  | .named fs =>
      if valsMatch p (fs.map Prod.snd) then .ok ⟨j, p⟩
      else .error .payloadError

/-- The linear chain of `if discriminant == (#expr) as u32 { return ... }`
tests over the normal variants in declaration order (`deser.rs:111-115`):
returns the position and shape of the first normal variant whose resolved
discriminant equals the tag, skipping the default arm. -/
def matchNormal (env : Nat → Nat) (tag : Nat) :
    List VariantInfo → Option (Nat × FieldShape)
  | [] => none
  | info :: rest =>
    match info.discriminant with
    | .default => (matchNormal env tag rest).map fun q => (q.1 + 1, q.2)
    | .normal e =>
        if tag = evalExpr env e % U32_MOD then some (0, info.variant.shape)
        else (matchNormal env tag rest).map fun q => (q.1 + 1, q.2)

/-- Position and shape of the default arm, if any. -/
def findDefaultArm : List VariantInfo → Option (Nat × FieldShape)
  | [] => none
  | info :: rest =>
    match info.discriminant with
    | .default => some (0, info.variant.shape)
    | .normal _ => (findDefaultArm rest).map fun q => (q.1 + 1, q.2)

/-- The default-arm deserialization branch (`deser.rs:68-91`): the declared
type of the single field is taken at generation time (no field at all is the
`compile_error!` case, generation halts); at decode time the zero-length
marker is read from the payload slot and the variant is constructed with
`discriminant as #ty`. -/
def decodeDefault (tag j : Nat) (tys : List Ty) (p : List Val) :
    Except DecodeError EnumVal :=
  match tys with
  | [] => .error .generationHalted
  | t :: _ =>
      match castTo t tag with
      | none => .error .generationHalted
      | some v => if p = [] then .ok ⟨j, [v]⟩ else .error .payloadError

/-- `Deserialize::deserialize` of the derived implementation. Modelled from
the spec (§4.4) for the branch ordering, which lives in the driver `lib.rs`
absent from `src/`: read the `u32` tag, try the normal variants' branches in
declaration order, then the default arm's branch, and otherwise fail with
`UnknownDiscriminant(tag)` (`lib.rs:232-239` of the in-tree older driver
shows the same trailing unknown-discriminant fall-through). The individual
branches themselves are from `deser.rs`. -/
def decode (S : List VariantSchema) (env : Nat → Nat) (w : Wire) :
    Except DecodeError EnumVal :=
  let infos := calculate_variants_with_discriminants S
  match matchNormal env w.tag infos with
  | some q => decodeVariantBody q.1 q.2 w.payload
  | none =>
      match findDefaultArm infos with
      | some q => decodeDefault w.tag q.1 q.2.tys w.payload
      | none => .error (.unknownDiscriminant w.tag)

/-- Is this variant marked `#[default_arm]`? -/
def isDefaultArm (v : VariantSchema) : Bool :=
  match v.disc_spec with
  | .defaultArm => true
  | _ => false

/-- Is this variant implicit (no discriminant expression, no mark)? -/
def isImplicit (v : VariantSchema) : Bool :=
  match v.disc_spec with
  | .implicitDisc => true
  | _ => false

/-- Does a default-arm variant have exactly one positional field? -/
def defaultArmShapeOk (v : VariantSchema) : Bool :=
  match v.shape with
  | .positional [_] => true
  | _ => false

/-- Schema-time validation errors (spec §4.1/§7). -/
inductive ValidationError where
  | atMostOneDefaultArm : ValidationError
  | defaultArmShape : ValidationError
deriving DecidableEq

/-- Modelled from the spec: the Validator (§4.1) runs in the driver `lib.rs`
absent from `src/` (`deser.rs:84-90` refers to it as "default_arm
validation"). It rejects a schema with more than one variant marked
`DefaultArm` (`AtMostOneDefaultArm`, listed first in §4.1) and a default arm
that does not have exactly one positional field (`DefaultArmShape`). -/
def validate (S : List VariantSchema) : Except ValidationError Unit :=
  if 1 < (S.filter isDefaultArm).length then .error .atMostOneDefaultArm
  else if S.any (fun v => isDefaultArm v && !defaultArmShapeOk v) then
    .error .defaultArmShape
  else .ok ()

/-- The codec contract pair produced for a valid schema (spec §9: generation
is a pure function from schema to contract). -/
structure Codec where
  enc : EnumVal → Option Wire
  dec : Wire → Except DecodeError EnumVal

/-- Codec generation: validation runs first and a failing schema halts
generation instead of producing contracts (spec §4.1/§7). -/
def generateCodec (S : List VariantSchema) (env : Nat → Nat) :
    Except ValidationError Codec :=
  match validate S with
  | .error e => .error e
  | .ok _ => .ok ⟨encode S env, decode S env⟩

/-- The resolved discriminants of a list of resolved variants, evaluated and
cast to `u32`, in order, skipping the default arm. -/
def normalTagsOf (env : Nat → Nat) (infos : List VariantInfo) : List Nat :=
  infos.filterMap fun info =>
    match info.discriminant with
    | .normal e => some (evalExpr env e % U32_MOD)
    | .default => none

/-- The resolved discriminants of the normal variants of a schema, evaluated
and cast to `u32`, in declaration order. -/
def normalTags (S : List VariantSchema) (env : Nat → Nat) : List Nat :=
  normalTagsOf env (calculate_variants_with_discriminants S)

/-- Does the tag equal the resolved `u32` discriminant of the normal variant
at position `i`? -/
def matchesTag (S : List VariantSchema) (env : Nat → Nat) (tag i : Nat) :
    Bool :=
  match (calculate_variants_with_discriminants S)[i]? with
  | some info =>
      match info.discriminant with
      | .normal e => evalExpr env e % U32_MOD == tag
      | .default => false
  | none => false

/-- Does the schema contain a variant marked `#[default_arm]`? -/
def hasDefaultArm (S : List VariantSchema) : Bool :=
  S.any isDefaultArm

/-- The enum of `tests/simple_enum.rs`: `Variant1 = foo()` (a `const fn`
returning 42, modelled as the uninterpreted symbol 0), `Variant2(u32)`,
`Variant3 { a: u32, b: String }`, `#[default_arm] Variant4(u8)`. -/
def testSchema : List VariantSchema :=
  [⟨"Variant1", .unit, .explicitDisc (.sym 0)⟩,
   ⟨"Variant2", .positional [.uint 32], .implicitDisc⟩,
   ⟨"Variant3", .named [("a", .uint 32), ("b", .str)], .implicitDisc⟩,
   ⟨"Variant4", .positional [.uint 8], .defaultArm⟩]

/-- Environment realizing `foo() = 42`. -/
def testEnv : Nat → Nat := fun _ => 42

example :
    decode testSchema testEnv ⟨43, [.vint 32 7]⟩ =
      .ok ⟨1, [.vint 32 7]⟩ := by rfl

example :
    encode testSchema testEnv ⟨3, [.vint 8 42]⟩ = some ⟨42, []⟩ := by rfl

example : decode testSchema testEnv ⟨42, []⟩ = .ok ⟨0, []⟩ := by rfl

example : decode testSchema testEnv ⟨99, []⟩ = .ok ⟨3, [.vint 8 99]⟩ := by
  rfl

/-! ## Resolver lemmas -/

theorem calcGo_length (l : List VariantSchema) (next : Expr) :
    (calcGo next l).length = l.length := by
  induction l generalizing next with
  | nil => rfl
  | cons v rest ih =>
    cases h : v.disc_spec <;> simp [calcGo, h, ih]

theorem calcGo_append (xs ys : List VariantSchema) (next : Expr) :
    calcGo next (xs ++ ys) =
      calcGo next xs ++ calcGo (nextAfter next xs) ys := by
  induction xs generalizing next with
  | nil => rfl
  | cons v rest ih =>
    cases h : v.disc_spec <;> simp [calcGo, nextAfter, h, ih]

theorem calcGo_get (l : List VariantSchema) (next : Expr) (i : Nat)
    (v : VariantSchema) (hv : l[i]? = some v) :
    ∃ info, (calcGo next l)[i]? = some info ∧ info.variant = v ∧
      (info.discriminant = .default ↔ v.disc_spec = .defaultArm) := by
  induction l generalizing next i with
  | nil => simp at hv
  | cons w rest ih =>
    cases i with
    | zero =>
      obtain rfl : w = v := by simpa using hv
      cases h : w.disc_spec with
      | defaultArm => exact ⟨⟨w, .default⟩, by simp [calcGo, h], rfl, by simp [h]⟩
      | explicitDisc e => exact ⟨⟨w, .normal e⟩, by simp [calcGo, h], rfl, by simp [h]⟩
      | implicitDisc => exact ⟨⟨w, .normal next⟩, by simp [calcGo, h], rfl, by simp [h]⟩
    | succ n =>
      have hv' : rest[n]? = some v := by simpa using hv
      cases h : w.disc_spec with
      | defaultArm =>
        obtain ⟨info, h1, h2, h3⟩ := ih next n hv'
        exact ⟨info, by simp [calcGo, h, h1], h2, h3⟩
      | explicitDisc e =>
        obtain ⟨info, h1, h2, h3⟩ := ih (.add1 e) n hv'
        exact ⟨info, by simp [calcGo, h, h1], h2, h3⟩
      | implicitDisc =>
        obtain ⟨info, h1, h2, h3⟩ := ih (.add1 next) n hv'
        exact ⟨info, by simp [calcGo, h, h1], h2, h3⟩

/-- C2: a variant marked as the default arm receives no resolved
discriminant and does not advance the running symbolic counter: every
variant that follows the default arm (in particular the implicit variant
right after it) resolves to exactly what it resolves to when the default arm
is deleted from the list. -/
theorem default_arm_not_counted (xs ys : List VariantSchema)
    (d : VariantSchema) (hd : d.disc_spec = .defaultArm) (k : Nat) :
    (calculate_variants_with_discriminants (xs ++ d :: ys))[xs.length + 1 + k]? =
      (calculate_variants_with_discriminants (xs ++ ys))[xs.length + k]? := by
  unfold calculate_variants_with_discriminants
  rw [calcGo_append, calcGo_append]
  have h1 : calcGo (nextAfter (.lit 0) xs) (d :: ys) =
      ⟨d, .default⟩ :: calcGo (nextAfter (.lit 0) xs) ys := by
    simp [calcGo, hd]
  rw [h1]
  rw [List.getElem?_append_right (by rw [calcGo_length]; omega),
    List.getElem?_append_right (by rw [calcGo_length]; omega)]
  simp only [calcGo_length]
  have h2 : xs.length + 1 + k - xs.length = k + 1 := by omega
  have h3 : xs.length + k - xs.length = k := by omega
  rw [h2, h3, List.getElem?_cons_succ]

/-- C2 witness: with `A = 5` explicit, then the default arm, then implicit
`B`, variant `B` resolves exactly as in the schema without the default arm
(namely to `(5 + 1)`). -/
theorem default_arm_not_counted_witness :
    (calculate_variants_with_discriminants
      ([⟨"A", .unit, .explicitDisc (.lit 5)⟩] ++
        ⟨"D", .positional [.uint 32], .defaultArm⟩ ::
          [⟨"B", .unit, .implicitDisc⟩]))[2]? =
      (calculate_variants_with_discriminants
        ([⟨"A", .unit, .explicitDisc (.lit 5)⟩] ++
          [⟨"B", .unit, .implicitDisc⟩]))[1]? :=
  default_arm_not_counted [⟨"A", .unit, .explicitDisc (.lit 5)⟩]
    [⟨"B", .unit, .implicitDisc⟩] ⟨"D", .positional [.uint 32], .defaultArm⟩
    rfl 0

theorem evalExpr_iterate_add1 (env : Nat → Nat) (k : Nat) (e : Expr) :
    evalExpr env (Expr.add1^[k] e) = evalExpr env e + k := by
  induction k with
  | zero => rfl
  | succ n ih =>
    rw [Function.iterate_succ_apply']
    simp [evalExpr, ih]
    omega

theorem calcGo_implicit_get (l : List VariantSchema) (next : Expr) (k : Nat)
    (hk : k < l.length)
    (himp : ∀ v ∈ l.take (k + 1), isImplicit v = true) :
    ∃ v, l[k]? = some v ∧
      (calcGo next l)[k]? = some ⟨v, .normal (Expr.add1^[k] next)⟩ := by
  induction l generalizing next k with
  | nil => simp at hk
  | cons w rest ih =>
    have hw : w.disc_spec = .implicitDisc := by
      have h := himp w (by simp [List.take_succ_cons])
      cases hspec : w.disc_spec <;> simp [isImplicit, hspec] at h ⊢
    cases k with
    | zero => exact ⟨w, by simp, by simp [calcGo, hw]⟩
    | succ n =>
      obtain ⟨v, hv, hinfo⟩ := ih (.add1 next) n (by simpa using hk)
        (fun v hv => himp v (by simp [List.take_succ_cons]; right; exact hv))
      refine ⟨v, by simpa using hv, ?_⟩
      simp [calcGo, hw, Function.iterate_succ_apply]
      exact hinfo

/-- C5: in a schema whose variants are all implicit (no explicit
discriminant, no default arm), the k-th variant resolves to a symbolic
expression evaluating to k: the counter starts at the literal 0 and each
implicit variant advances it by +1. -/
theorem implicit_variants_sequential (S : List VariantSchema)
    (env : Nat → Nat) (k : Nat) (hall : S.all isImplicit = true)
    (hk : k < S.length) :
    ∃ info, (calculate_variants_with_discriminants S)[k]? = some info ∧
      ∃ e, info.discriminant = .normal e ∧ evalExpr env e = k := by
  obtain ⟨v, hv, hinfo⟩ := calcGo_implicit_get S (.lit 0) k hk
    (fun v hv => List.all_eq_true.mp hall v (List.take_subset _ _ hv))
  exact ⟨_, hinfo, _, rfl, by simp [evalExpr_iterate_add1, evalExpr]⟩

/-- C5 witness: in a three-variant all-implicit schema, the variant at
position 2 resolves to an expression evaluating to 2. -/
theorem implicit_variants_sequential_witness :
    ∃ info, (calculate_variants_with_discriminants
        [⟨"A", .unit, .implicitDisc⟩, ⟨"B", .unit, .implicitDisc⟩,
          ⟨"C", .positional [.uint 32], .implicitDisc⟩])[2]? = some info ∧
      ∃ e, info.discriminant = .normal e ∧ evalExpr testEnv e = 2 :=
  implicit_variants_sequential
    [⟨"A", .unit, .implicitDisc⟩, ⟨"B", .unit, .implicitDisc⟩,
      ⟨"C", .positional [.uint 32], .implicitDisc⟩]
    testEnv 2 (by decide) (by decide)

theorem calcGo_explicit_then_implicit (l : List VariantSchema) (next : Expr)
    (k : Nat) (v v' : VariantSchema) (e : Expr)
    (hv : l[k]? = some v) (he : v.disc_spec = .explicitDisc e)
    (hv' : l[k + 1]? = some v') (hi : v'.disc_spec = .implicitDisc) :
    (calcGo next l)[k + 1]? = some ⟨v', .normal (.add1 e)⟩ := by
  induction l generalizing next k with
  | nil => simp at hv
  | cons w rest ih =>
    cases k with
    | zero =>
      obtain rfl : w = v := by simpa using hv
      have hv'' : rest[0]? = some v' := by simpa using hv'
      cases rest with
      | nil => simp at hv''
      | cons r rest' =>
        obtain rfl : r = v' := by simpa using hv''
        simp [calcGo, he, hi]
    | succ n =>
      have h1 : rest[n]? = some v := by simpa using hv
      have h2 : rest[n + 1]? = some v' := by simpa using hv'
      cases h : w.disc_spec with
      | defaultArm => simpa [calcGo, h] using ih next n h1 h2
      | explicitDisc e0 => simpa [calcGo, h] using ih (.add1 e0) n h1 h2
      | implicitDisc => simpa [calcGo, h] using ih (.add1 next) n h1 h2

/-- C6: if variant k has the explicit discriminant expression E and variant
k+1 is implicit, variant k+1 resolves to the symbolic expression `(E + 1)`:
the unevaluated expression composed with a symbolic "+1", E itself never
evaluated by the resolver. -/
theorem explicit_then_implicit_resolves_succ (S : List VariantSchema)
    (k : Nat) (v v' : VariantSchema) (e : Expr)
    (hv : S[k]? = some v) (he : v.disc_spec = .explicitDisc e)
    (hv' : S[k + 1]? = some v') (hi : v'.disc_spec = .implicitDisc) :
    (calculate_variants_with_discriminants S)[k + 1]? =
      some ⟨v', .normal (.add1 e)⟩ :=
  calcGo_explicit_then_implicit S (.lit 0) k v v' e hv he hv' hi

/-- C6 witness: in the test schema, `Variant1 = foo()` is explicit and
`Variant2` is implicit, so `Variant2` resolves to the symbolic
`(foo() + 1)`. -/
theorem explicit_then_implicit_resolves_succ_witness :
    (calculate_variants_with_discriminants testSchema)[0 + 1]? =
      some ⟨⟨"Variant2", .positional [.uint 32], .implicitDisc⟩,
        .normal (.add1 (.sym 0))⟩ :=
  explicit_then_implicit_resolves_succ testSchema 0
    ⟨"Variant1", .unit, .explicitDisc (.sym 0)⟩
    ⟨"Variant2", .positional [.uint 32], .implicitDisc⟩ (.sym 0)
    rfl rfl rfl rfl

/-! ## Decode dispatch lemmas -/

theorem normalTagsOf_cons_normal (env : Nat → Nat) (x : VariantInfo)
    (rest : List VariantInfo) (e : Expr) (hx : x.discriminant = .normal e) :
    normalTagsOf env (x :: rest) =
      evalExpr env e % U32_MOD :: normalTagsOf env rest := by
  simp [normalTagsOf, List.filterMap_cons, hx]

theorem normalTagsOf_cons_default (env : Nat → Nat) (x : VariantInfo)
    (rest : List VariantInfo) (hx : x.discriminant = .default) :
    normalTagsOf env (x :: rest) = normalTagsOf env rest := by
  simp [normalTagsOf, List.filterMap_cons, hx]

theorem mem_normalTagsOf (env : Nat → Nat) (infos : List VariantInfo)
    (i : Nat) (info : VariantInfo) (e : Expr)
    (h : infos[i]? = some info) (hd : info.discriminant = .normal e) :
    evalExpr env e % U32_MOD ∈ normalTagsOf env infos :=
  List.mem_filterMap.mpr ⟨info, List.getElem?_mem h, by simp [hd]⟩

theorem matchNormal_eq_none_iff (env : Nat → Nat) (tag : Nat)
    (infos : List VariantInfo) :
    matchNormal env tag infos = none ↔ tag ∉ normalTagsOf env infos := by
  induction infos with
  | nil => simp [matchNormal, normalTagsOf]
  | cons x rest ih =>
    cases hx : x.discriminant with
    | default =>
      rw [normalTagsOf_cons_default env x rest hx]
      simp [matchNormal, hx, Option.map_eq_none', ih]
    | normal e =>
      rw [normalTagsOf_cons_normal env x rest e hx]
      by_cases ht : tag = evalExpr env e % U32_MOD
      · simp [matchNormal, hx, ht]
      · simp [matchNormal, hx, ht, Option.map_eq_none', ih,
          fun h : evalExpr env e % U32_MOD = tag => ht h.symm]

theorem matchNormal_eq_some_first (env : Nat → Nat) (tag : Nat)
    (infos : List VariantInfo) (i : Nat) (info : VariantInfo) (e : Expr)
    (h : infos[i]? = some info) (hd : info.discriminant = .normal e)
    (ht : evalExpr env e % U32_MOD = tag)
    (hfirst : ∀ m, m < i → ∀ info' e', infos[m]? = some info' →
        info'.discriminant = .normal e' →
        evalExpr env e' % U32_MOD ≠ tag) :
    matchNormal env tag infos = some (i, info.variant.shape) := by
  induction infos generalizing i with
  | nil => simp at h
  | cons x rest ih =>
    cases i with
    | zero =>
      obtain rfl : x = info := by simpa using h
      simp [matchNormal, hd, ht]
    | succ n =>
      have h' : rest[n]? = some info := by simpa using h
      have hfirst' : ∀ m, m < n → ∀ info' e', rest[m]? = some info' →
          info'.discriminant = .normal e' →
          evalExpr env e' % U32_MOD ≠ tag :=
        fun m hm info' e' h1 h2 =>
          hfirst (m + 1) (by omega) info' e' (by simpa using h1) h2
      cases hx : x.discriminant with
      | default =>
        simp [matchNormal, hx, ih n h' hfirst']
      | normal e0 =>
        have hne : evalExpr env e0 % U32_MOD ≠ tag :=
          hfirst 0 (by omega) x e0 (by simp) hx
        have hne' : ¬(tag = evalExpr env e0 % U32_MOD) :=
          fun hh => hne hh.symm
        simp [matchNormal, hx, hne', ih n h' hfirst']

theorem nodup_match_unique (env : Nat → Nat) (tag : Nat)
    (infos : List VariantInfo)
    (hnd : (normalTagsOf env infos).Nodup) (i j : Nat)
    (info info' : VariantInfo) (e e' : Expr)
    (hi : infos[i]? = some info) (hdi : info.discriminant = .normal e)
    (hti : evalExpr env e % U32_MOD = tag)
    (hj : infos[j]? = some info') (hdj : info'.discriminant = .normal e')
    (htj : evalExpr env e' % U32_MOD = tag) : i = j := by
  induction infos generalizing i j with
  | nil => simp at hi
  | cons x rest ih =>
    cases i with
    | zero =>
      cases j with
      | zero => rfl
      | succ m =>
        exfalso
        have hxi : x = info := by simpa using hi
        have hdx : x.discriminant = .normal e := by rw [hxi]; exact hdi
        have hmem : tag ∈ normalTagsOf env rest :=
          htj ▸ mem_normalTagsOf env rest m info' e' (by simpa using hj) hdj
        rw [normalTagsOf_cons_normal env x rest e hdx, hti] at hnd
        exact (List.nodup_cons.mp hnd).1 hmem
    | succ n =>
      cases j with
      | zero =>
        exfalso
        have hxj : x = info' := by simpa using hj
        have hdx : x.discriminant = .normal e' := by rw [hxj]; exact hdj
        have hmem : tag ∈ normalTagsOf env rest :=
          hti ▸ mem_normalTagsOf env rest n info e (by simpa using hi) hdi
        rw [normalTagsOf_cons_normal env x rest e' hdx, htj] at hnd
        exact (List.nodup_cons.mp hnd).1 hmem
      | succ m =>
        have hnd' : (normalTagsOf env rest).Nodup := by
          cases hx : x.discriminant with
          | default => rwa [normalTagsOf_cons_default env x rest hx] at hnd
          | normal e0 =>
            rw [normalTagsOf_cons_normal env x rest e0 hx] at hnd
            exact (List.nodup_cons.mp hnd).2
        have := ih hnd' n m (by simpa using hi) (by simpa using hj)
        omega

theorem matchNormal_of_nodup (env : Nat → Nat) (tag : Nat)
    (infos : List VariantInfo) (i : Nat) (info : VariantInfo) (e : Expr)
    (hnd : (normalTagsOf env infos).Nodup)
    (h : infos[i]? = some info) (hd : info.discriminant = .normal e)
    (ht : evalExpr env e % U32_MOD = tag) :
    matchNormal env tag infos = some (i, info.variant.shape) :=
  matchNormal_eq_some_first env tag infos i info e h hd ht
    (fun m hm info' e' h1 h2 ht' => by
      have := nodup_match_unique env tag infos hnd m i info' info e' e
        h1 h2 ht' h hd ht
      omega)

theorem findDefaultArm_calcGo_none (l : List VariantSchema) (next : Expr)
    (h : ∀ v ∈ l, isDefaultArm v = false) :
    findDefaultArm (calcGo next l) = none := by
  induction l generalizing next with
  | nil => rfl
  | cons w rest ih =>
    cases hx : w.disc_spec with
    | defaultArm =>
      have := h w (by simp)
      simp [isDefaultArm, hx] at this
    | explicitDisc e =>
      simp [calcGo, hx, findDefaultArm,
        ih (.add1 e) (fun v hv => h v (by simp [hv]))]
    | implicitDisc =>
      simp [calcGo, hx, findDefaultArm,
        ih (.add1 next) (fun v hv => h v (by simp [hv]))]

theorem findDefaultArm_calcGo (l : List VariantSchema) (next : Expr)
    (i : Nat) (v : VariantSchema)
    (hcount : (l.filter isDefaultArm).length ≤ 1)
    (hv : l[i]? = some v) (hd : v.disc_spec = .defaultArm) :
    findDefaultArm (calcGo next l) = some (i, v.shape) := by
  induction l generalizing next i with
  | nil => simp at hv
  | cons w rest ih =>
    cases i with
    | zero =>
      obtain rfl : w = v := by simpa using hv
      simp [calcGo, hd, findDefaultArm]
    | succ n =>
      have hv' : rest[n]? = some v := by simpa using hv
      cases hx : w.disc_spec with
      | defaultArm =>
        exfalso
        have hvmem : v ∈ rest := List.getElem?_mem hv'
        have h1 : v ∈ rest.filter isDefaultArm :=
          List.mem_filter.mpr ⟨hvmem, by simp [isDefaultArm, hd]⟩
        have h2 : 0 < (rest.filter isDefaultArm).length :=
          List.length_pos_of_mem h1
        have h3 : (w :: rest).filter isDefaultArm =
            w :: rest.filter isDefaultArm := by
          simp [List.filter_cons, isDefaultArm, hx]
        rw [h3] at hcount
        simp only [List.length_cons] at hcount
        omega
      | explicitDisc e =>
        have h3 : (w :: rest).filter isDefaultArm =
            rest.filter isDefaultArm := by
          simp [List.filter_cons, isDefaultArm, hx]
        simp [calcGo, hx, findDefaultArm,
          ih (.add1 e) n (by rwa [h3] at hcount) hv']
      | implicitDisc =>
        have h3 : (w :: rest).filter isDefaultArm =
            rest.filter isDefaultArm := by
          simp [List.filter_cons, isDefaultArm, hx]
        simp [calcGo, hx, findDefaultArm,
          ih (.add1 next) n (by rwa [h3] at hcount) hv']

/-! ## Validation lemmas -/

theorem validate_ok_count (S : List VariantSchema)
    (h : validate S = .ok ()) : (S.filter isDefaultArm).length ≤ 1 := by
  unfold validate at h
  by_cases h1 : 1 < (S.filter isDefaultArm).length
  · rw [if_pos h1] at h
    cases h
  · omega

theorem validate_ok_shape (S : List VariantSchema) (h : validate S = .ok ())
    (v : VariantSchema) (hv : v ∈ S) (hd : isDefaultArm v = true) :
    defaultArmShapeOk v = true := by
  unfold validate at h
  split at h
  · cases h
  · split at h
    · cases h
    · rename_i h2
      by_contra hbad
      rw [Bool.not_eq_true] at hbad
      exact h2 (List.any_eq_true.mpr ⟨v, hv, by simp [hd, hbad]⟩)

theorem defaultArmShapeOk_spec (v : VariantSchema)
    (h : defaultArmShapeOk v = true) : ∃ t, v.shape = .positional [t] := by
  unfold defaultArmShapeOk at h
  cases hs : v.shape with
  | unit => rw [hs] at h; cases h
  | named fs => rw [hs] at h; cases h
  | positional ts =>
    rw [hs] at h
    match ts, h with
    | [t], _ => exact ⟨t, rfl⟩

theorem valsMatch_nil (vs : List Val) (h : valsMatch vs [] = true) :
    vs = [] := by
  cases vs with
  | nil => rfl
  | cons a l => simp [valsMatch] at h

theorem valsMatch_single (a : Val) (t : Ty)
    (h : valsMatch [a] [t] = true) : a.hasTy t = true := by
  simpa [valsMatch] using h

/-! ## Codec behaviour helpers (shared by the claim theorems) -/

theorem encodeNormalSpec (S : List VariantSchema) (env : Nat → Nat) (i : Nat)
    (info : VariantInfo) (e : Expr) (vs : List Val)
    (hinfo : (calculate_variants_with_discriminants S)[i]? = some info)
    (hd : info.discriminant = .normal e) :
    encode S env ⟨i, vs⟩ = some ⟨evalExpr env e % U32_MOD, vs⟩ := by
  simp [encode, hinfo, encodeVariant, hd]

theorem encodeDefaultSpec (S : List VariantSchema) (env : Nat → Nat) (i : Nat)
    (info : VariantInfo) (w n : Nat)
    (hinfo : (calculate_variants_with_discriminants S)[i]? = some info)
    (hd : info.discriminant = .default) :
    encode S env ⟨i, [.vint w n]⟩ = some ⟨n % U32_MOD, []⟩ := by
  simp [encode, hinfo, encodeVariant, hd, valAsU32]

theorem decodeDefaultSpec (S : List VariantSchema) (env : Nat → Nat)
    (tag j w : Nat) (v : VariantSchema)
    (hv : S[j]? = some v) (hd : v.disc_spec = .defaultArm)
    (hs : v.shape = .positional [.uint w]) (hval : validate S = .ok ())
    (hno : tag ∉ normalTags S env) :
    decode S env ⟨tag, []⟩ = .ok ⟨j, [.vint w (tag % 2 ^ w)]⟩ := by
  have hmn : matchNormal env tag (calculate_variants_with_discriminants S) =
      none := (matchNormal_eq_none_iff env tag _).mpr hno
  have hfd : findDefaultArm (calculate_variants_with_discriminants S) =
      some (j, v.shape) :=
    findDefaultArm_calcGo S (.lit 0) j v (validate_ok_count S hval) hv hd
  simp [decode, hmn, hfd, hs, decodeDefault, FieldShape.tys, castTo]

theorem decodeNoDefaultSpec (S : List VariantSchema) (env : Nat → Nat)
    (tag : Nat) (p : List Val) (hno : tag ∉ normalTags S env)
    (hnd : hasDefaultArm S = false) :
    decode S env ⟨tag, p⟩ = .error (.unknownDiscriminant tag) := by
  have hmn : matchNormal env tag (calculate_variants_with_discriminants S) =
      none := (matchNormal_eq_none_iff env tag _).mpr hno
  have hfd : findDefaultArm (calculate_variants_with_discriminants S) =
      none := by
    refine findDefaultArm_calcGo_none S (.lit 0) fun v hv => ?_
    have := List.any_eq_false.mp (by simpa [hasDefaultArm] using hnd) v hv
    simpa using this
  simp [decode, hmn, hfd]

theorem matchesTag_eq_true (S : List VariantSchema) (env : Nat → Nat)
    (tag k : Nat) :
    matchesTag S env tag k = true ↔
      ∃ info, (calculate_variants_with_discriminants S)[k]? = some info ∧
        ∃ e, info.discriminant = .normal e ∧
          evalExpr env e % U32_MOD = tag := by
  unfold matchesTag
  cases h : (calculate_variants_with_discriminants S)[k]? with
  | none => simp
  | some info =>
    cases hd : info.discriminant with
    | default => simp [hd]
    | normal e =>
      simp only [hd]
      constructor
      · intro ht
        exact ⟨info, rfl, e, hd, by simpa using ht⟩
      · rintro ⟨info', hinfo', e', hd', ht'⟩
        obtain rfl : info = info' := by simpa using hinfo'
        rw [hd] at hd'
        obtain rfl : e = e' := by simpa using hd'
        simpa using ht'

/-! ## Claim theorems -/

/-- C3: decoding a tag that matches no normal variant's resolved
discriminant yields, when the schema has a default arm (of declared numeric
field type `uintW`), the default variant holding the tag converted to that
type; and, when it has no default arm, the typed recoverable error
`UnknownDiscriminant(tag)` — never an uncatchable fault. -/
theorem decode_unmatched_tag (S : List VariantSchema) (env : Nat → Nat)
    (tag : Nat) (hno : tag ∉ normalTags S env) :
    (∀ j v w, S[j]? = some v → v.disc_spec = .defaultArm →
        v.shape = .positional [.uint w] → validate S = .ok () →
        decode S env ⟨tag, []⟩ = .ok ⟨j, [.vint w (tag % 2 ^ w)]⟩)
    ∧ (hasDefaultArm S = false →
        ∀ p, decode S env ⟨tag, p⟩ = .error (.unknownDiscriminant tag)) :=
  ⟨fun j v w hv hd hs hval => decodeDefaultSpec S env tag j w v hv hd hs hval hno,
    fun hnd p => decodeNoDefaultSpec S env tag p hno hnd⟩

/-- C3 witness: on the test schema, tag 99 (unmatched) decodes to
`Variant4(99u8)`; on a schema with no default arm, tag 99 yields
`UnknownDiscriminant(99)`. -/
theorem decode_unmatched_tag_witness :
    decode testSchema testEnv ⟨99, []⟩ = .ok ⟨3, [.vint 8 (99 % 2 ^ 8)]⟩
    ∧ decode [⟨"A", .unit, .explicitDisc (.lit 5)⟩] testEnv ⟨99, []⟩ =
        .error (.unknownDiscriminant 99) :=
  ⟨(decode_unmatched_tag testSchema testEnv 99 (by decide)).1 3
      ⟨"Variant4", .positional [.uint 8], .defaultArm⟩ 8 rfl rfl rfl rfl,
    (decode_unmatched_tag [⟨"A", .unit, .explicitDisc (.lit 5)⟩] testEnv 99
      (by decide)).2 rfl []⟩

/-- C4: decode dispatch is a linear chain of equality tests over the normal
variants in declaration order; when a tag matches the resolved discriminant
of more than one variant, decode delegates to the earliest-declared matching
variant's branch and examines no further variants. -/
theorem first_match_wins (S : List VariantSchema) (env : Nat → Nat)
    (w : Wire) (i j : Nat) (hij : i < j)
    (hi : matchesTag S env w.tag i = true)
    (hj : matchesTag S env w.tag j = true) :
    ∃ k info, k ≤ i ∧
      (calculate_variants_with_discriminants S)[k]? = some info ∧
      matchesTag S env w.tag k = true ∧
      (∀ m, m < k → matchesTag S env w.tag m = false) ∧
      decode S env w = decodeVariantBody k info.variant.shape w.payload := by
  have hex : ∃ k, matchesTag S env w.tag k = true := ⟨i, hi⟩
  have hk : matchesTag S env w.tag (Nat.find hex) = true := Nat.find_spec hex
  have hle : Nat.find hex ≤ i := Nat.find_min' hex hi
  have hmin : ∀ m, m < Nat.find hex → matchesTag S env w.tag m = false :=
    fun m hm => by simpa using Nat.find_min hex hm
  obtain ⟨info, hinfo, e, hd, ht⟩ := (matchesTag_eq_true S env w.tag _).mp hk
  have hm : matchNormal env w.tag (calculate_variants_with_discriminants S) =
      some (Nat.find hex, info.variant.shape) :=
    matchNormal_eq_some_first env w.tag _ (Nat.find hex) info e hinfo hd ht
      (fun m hm' info' e' h1 h2 hteq => by
        have hfalse := hmin m hm'
        rw [(matchesTag_eq_true S env w.tag m).symm.mp ?_] at hfalse
        · cases hfalse
        · exact ⟨info', h1, e', h2, hteq⟩)
  exact ⟨Nat.find hex, info, hle, hinfo, hk, hmin, by simp [decode, hm]⟩

/-- C4 witness: two variants both resolving to tag 5; decode of tag 5
delegates to the branch of the earliest-declared one (position 0). -/
theorem first_match_wins_witness :
    ∃ k info, k ≤ 0 ∧
      (calculate_variants_with_discriminants
        [⟨"A", .unit, .explicitDisc (.lit 5)⟩,
          ⟨"B", .positional [.uint 32], .explicitDisc (.lit 5)⟩])[k]? =
        some info ∧
      matchesTag [⟨"A", .unit, .explicitDisc (.lit 5)⟩,
          ⟨"B", .positional [.uint 32], .explicitDisc (.lit 5)⟩]
        testEnv (5 : Nat) k = true ∧
      (∀ m, m < k →
        matchesTag [⟨"A", .unit, .explicitDisc (.lit 5)⟩,
            ⟨"B", .positional [.uint 32], .explicitDisc (.lit 5)⟩]
          testEnv (5 : Nat) m = false) ∧
      decode [⟨"A", .unit, .explicitDisc (.lit 5)⟩,
          ⟨"B", .positional [.uint 32], .explicitDisc (.lit 5)⟩]
        testEnv ⟨5, []⟩ = decodeVariantBody k info.variant.shape [] :=
  first_match_wins
    [⟨"A", .unit, .explicitDisc (.lit 5)⟩,
      ⟨"B", .positional [.uint 32], .explicitDisc (.lit 5)⟩]
    testEnv ⟨5, []⟩ 0 1 (by decide) (by decide) (by decide)

/-- C7: encoding a value of a normal variant writes exactly the two-slot
container: slot 0 is the resolved discriminant evaluated and cast to `u32`,
slot 1 is the ordered list of the field values in declaration order (which
for the Unit shape is the zero-length marker `[]`); no field names are on
the wire (the payload slot holds values only). -/
theorem encode_normal_variant (S : List VariantSchema) (env : Nat → Nat)
    (i : Nat) (info : VariantInfo) (e : Expr) (vs : List Val)
    (hinfo : (calculate_variants_with_discriminants S)[i]? = some info)
    (hd : info.discriminant = .normal e)
    (hcons : constructibleB S ⟨i, vs⟩ = true) :
    encode S env ⟨i, vs⟩ = some ⟨evalExpr env e % U32_MOD, vs⟩
    ∧ (info.variant.shape = .unit → vs = []) := by
  refine ⟨encodeNormalSpec S env i info e vs hinfo hd, fun hu => ?_⟩
  unfold constructibleB at hcons
  cases hv : S[i]? with
  | none => rw [hv] at hcons; cases hcons
  | some v =>
    rw [hv] at hcons
    obtain ⟨info', hinfo', hvar, _⟩ := calcGo_get S (.lit 0) i v hv
    have hii : info = info' := by
      rw [calculate_variants_with_discriminants] at hinfo
      rw [hinfo] at hinfo'
      simpa using hinfo'
    have hiv : info.variant = v := by rw [hii]; exact hvar
    have hvu : v.shape = .unit := by rw [← hiv]; exact hu
    have hcons' : valsMatch vs v.shape.tys = true := hcons
    rw [hvu] at hcons'
    exact valsMatch_nil vs hcons'

/-- C7 witness: encoding `Variant2(5u32)` of the test schema writes tag
`foo() + 1 = 43` and the one-element payload tuple. -/
theorem encode_normal_variant_witness :
    encode testSchema testEnv ⟨1, [.vint 32 5]⟩ =
      some ⟨evalExpr testEnv (.add1 (.sym 0)) % U32_MOD, [.vint 32 5]⟩
    ∧ ((⟨⟨"Variant2", .positional [.uint 32], .implicitDisc⟩,
        .normal (.add1 (.sym 0))⟩ : VariantInfo).variant.shape = .unit →
        [Val.vint 32 5] = []) :=
  encode_normal_variant testSchema testEnv 1
    ⟨⟨"Variant2", .positional [.uint 32], .implicitDisc⟩,
      .normal (.add1 (.sym 0))⟩
    (.add1 (.sym 0)) [.vint 32 5] rfl rfl (by decide)

/-- C8: encoding a value of the default-arm variant writes its single
field's runtime value, cast to `u32`, into the tag slot, and the
zero-length marker into the payload slot. -/
theorem encode_default_arm (S : List VariantSchema) (env : Nat → Nat)
    (i : Nat) (info : VariantInfo) (w n : Nat)
    (hinfo : (calculate_variants_with_discriminants S)[i]? = some info)
    (hd : info.discriminant = .default) :
    encode S env ⟨i, [.vint w n]⟩ = some ⟨n % U32_MOD, []⟩ :=
  encodeDefaultSpec S env i info w n hinfo hd

/-- C8 witness: encoding `Variant4(7u8)` (the default arm) of the test
schema produces tag slot 7 and the empty payload slot. -/
theorem encode_default_arm_witness :
    encode testSchema testEnv ⟨3, [.vint 8 7]⟩ = some ⟨7, []⟩ := by
  have h := encode_default_arm testSchema testEnv 3
    ⟨⟨"Variant4", .positional [.uint 8], .defaultArm⟩, .default⟩ 8 7 rfl rfl
  simpa using h

/-- C9: validation, which runs before resolution, fails with
`AtMostOneDefaultArm` exactly when more than one variant is marked as a
default arm; within the at-most-one-default-arm regime (where that first
check passes) it fails with `DefaultArmShape` exactly when a default arm
does not have exactly one positional field; and on any failing schema,
codec generation halts with that error instead of producing contracts. -/
theorem validation_characterization (S : List VariantSchema)
    (env : Nat → Nat) :
    (validate S = .error .atMostOneDefaultArm ↔
      1 < (S.filter isDefaultArm).length)
    ∧ ((S.filter isDefaultArm).length ≤ 1 →
        (validate S = .error .defaultArmShape ↔
          ∃ v ∈ S, isDefaultArm v = true ∧ defaultArmShapeOk v = false))
    ∧ (∀ err, validate S = .error err → generateCodec S env = .error err) := by
  refine ⟨?_, ?_, ?_⟩
  · unfold validate
    by_cases h1 : 1 < (S.filter isDefaultArm).length
    · simp [h1]
    · rw [if_neg h1]
      by_cases h2 :
          S.any (fun v => isDefaultArm v && !defaultArmShapeOk v) = true
      · simp [h2, h1]
      · simp [h2, h1]
  · intro hle
    have h1 : ¬1 < (S.filter isDefaultArm).length := by omega
    unfold validate
    rw [if_neg h1]
    by_cases h2 :
        S.any (fun v => isDefaultArm v && !defaultArmShapeOk v) = true
    · rw [if_pos h2]
      obtain ⟨v, hv, hvv⟩ := List.any_eq_true.mp h2
      simp only [Bool.and_eq_true, Bool.not_eq_true'] at hvv
      constructor
      · intro _
        exact ⟨v, hv, hvv.1, hvv.2⟩
      · intro _
        rfl
    · rw [if_neg h2]
      constructor
      · intro h
        cases h
      · rintro ⟨v, hv, hd, hbad⟩
        exact absurd (List.any_eq_true.mpr ⟨v, hv, by simp [hd, hbad]⟩) h2
  · intro err herr
    unfold generateCodec
    rw [herr]

/-- C9 witness: two default arms fail with `AtMostOneDefaultArm`; a single
default arm with no field fails with `DefaultArmShape`; generation of the
latter schema halts with that error. -/
theorem validation_characterization_witness :
    validate [⟨"D1", .positional [.uint 32], .defaultArm⟩,
        ⟨"D2", .positional [.uint 32], .defaultArm⟩] =
      .error .atMostOneDefaultArm
    ∧ validate [⟨"D", .unit, .defaultArm⟩] = .error .defaultArmShape
    ∧ generateCodec [⟨"D", .unit, .defaultArm⟩] testEnv =
        .error .defaultArmShape :=
  ⟨(validation_characterization _ testEnv).1.mpr (by decide),
    ((validation_characterization _ testEnv).2.1 (by decide)).mpr
      ⟨⟨"D", .unit, .defaultArm⟩, by decide, by decide, by decide⟩,
    (validation_characterization _ testEnv).2.2 .defaultArmShape
      (((validation_characterization _ testEnv).2.1 (by decide)).mpr
        ⟨⟨"D", .unit, .defaultArm⟩, by decide, by decide, by decide⟩)⟩

/-- C10: with a default arm whose single field is a numeric type narrower
than 32 bits (width w), decoding an unmatched tag of at least 2^w stores
the tag reduced modulo 2^w (Rust's narrowing `as` cast), which differs from
the wire tag, and re-encoding that decoded value yields the reduced tag —
different from the received one. -/
theorem default_arm_narrowing (S : List VariantSchema) (env : Nat → Nat)
    (tag j w : Nat) (v : VariantSchema)
    (hv : S[j]? = some v) (hd : v.disc_spec = .defaultArm)
    (hs : v.shape = .positional [.uint w]) (hval : validate S = .ok ())
    (hno : tag ∉ normalTags S env) (hw : w < 32) (htag : 2 ^ w ≤ tag) :
    decode S env ⟨tag, []⟩ = .ok ⟨j, [.vint w (tag % 2 ^ w)]⟩
    ∧ tag % 2 ^ w ≠ tag
    ∧ encode S env ⟨j, [.vint w (tag % 2 ^ w)]⟩ =
        some ⟨tag % 2 ^ w, []⟩ := by
  have hmod : tag % 2 ^ w < 2 ^ w :=
    Nat.mod_lt _ (pow_pos (by norm_num) w)
  refine ⟨decodeDefaultSpec S env tag j w v hv hd hs hval hno,
    Nat.ne_of_lt (lt_of_lt_of_le hmod htag), ?_⟩
  obtain ⟨info, hinfo, hvar, hiff⟩ := calcGo_get S (.lit 0) j v hv
  have hdi : info.discriminant = .default := hiff.mpr hd
  have henc := encodeDefaultSpec S env j info w (tag % 2 ^ w) hinfo hdi
  rw [henc]
  have h32 : tag % 2 ^ w < U32_MOD :=
    lt_of_lt_of_le hmod (Nat.pow_le_pow_right (by norm_num) (by omega))
  rw [Nat.mod_eq_of_lt h32]

/-- C10 witness: on the test schema (default arm field `u8`), decoding the
unmatched tag 300 stores `300 % 256 = 44`, and re-encoding produces tag 44,
not 300. -/
theorem default_arm_narrowing_witness :
    decode testSchema testEnv ⟨300, []⟩ = .ok ⟨3, [.vint 8 (300 % 2 ^ 8)]⟩
    ∧ 300 % 2 ^ 8 ≠ 300
    ∧ encode testSchema testEnv ⟨3, [.vint 8 (300 % 2 ^ 8)]⟩ =
        some ⟨300 % 2 ^ 8, []⟩ :=
  default_arm_narrowing testSchema testEnv 300 3 8
    ⟨"Variant4", .positional [.uint 8], .defaultArm⟩ rfl rfl rfl rfl
    (by decide) (by decide) (by decide)

/-- C1 counterexample: on the test schema, `Variant4(42)` is a
constructible value of the default-arm variant, but its encoding (tag 42,
empty payload) decodes to `Variant1` — the normal variant whose resolved
discriminant `foo()` is 42 — so `decode (encode V) ≠ V` and the claim's
unconditional quantification over all schemas and constructible values
fails. -/
theorem roundtrip_counterexample :
    constructibleB testSchema ⟨3, [.vint 8 42]⟩ = true
    ∧ encode testSchema testEnv ⟨3, [.vint 8 42]⟩ = some ⟨42, []⟩
    ∧ decode testSchema testEnv ⟨42, []⟩ = .ok ⟨0, []⟩
    ∧ (⟨0, []⟩ : EnumVal) ≠ ⟨3, [.vint 8 42]⟩ :=
  ⟨by decide, by rfl, by rfl, by decide⟩

/-- C1 (amended): `decode (encode V) = V` for every constructible value V,
provided the schema validates, the normal variants' resolved `u32`
discriminants are pairwise distinct, and — when V is of the default-arm
variant — V's stored field value fits in 32 bits and equals no normal
variant's resolved discriminant. -/
theorem roundtrip (S : List VariantSchema) (env : Nat → Nat) (V : EnumVal)
    (hval : validate S = .ok ())
    (hcons : constructibleB S V = true)
    (hnodup : (normalTags S env).Nodup)
    (hdef : ∀ info,
        (calculate_variants_with_discriminants S)[V.variantIdx]? =
          some info →
        info.discriminant = .default →
        ∃ w n, V.fields = [Val.vint w n] ∧ n < U32_MOD ∧
          n ∉ normalTags S env) :
    (encode S env V).map (decode S env) = some (.ok V) := by
  obtain ⟨idx, vs⟩ := V
  unfold constructibleB at hcons
  cases hv : S[idx]? with
  | none => rw [hv] at hcons; cases hcons
  | some v =>
    rw [hv] at hcons
    have hm : valsMatch vs v.shape.tys = true := hcons
    obtain ⟨info, hinfo, hvar, hiff⟩ := calcGo_get S (.lit 0) idx v hv
    have hinfo' :
        (calculate_variants_with_discriminants S)[idx]? = some info := hinfo
    cases hd : info.discriminant with
    | normal e =>
      have henc := encodeNormalSpec S env idx info e vs hinfo' hd
      rw [henc, Option.map_some']
      have hmn : matchNormal env (evalExpr env e % U32_MOD)
          (calculate_variants_with_discriminants S) =
          some (idx, info.variant.shape) :=
        matchNormal_of_nodup env _ _ idx info e hnodup hinfo' hd rfl
      have hdec : decode S env ⟨evalExpr env e % U32_MOD, vs⟩ =
          .ok ⟨idx, vs⟩ := by
        simp only [decode, hmn]
        rw [hvar]
        cases hs : v.shape with
        | unit =>
          have hvs : vs = [] := valsMatch_nil vs (by rw [hs] at hm; exact hm)
          simp [decodeVariantBody, hvs]
        | positional ts =>
          have hm' : valsMatch vs ts = true := by rw [hs] at hm; exact hm
          simp [decodeVariantBody, hm']
        | named fs =>
          have hm' : valsMatch vs (fs.map Prod.snd) = true := by
            rw [hs] at hm; exact hm
          simp [decodeVariantBody, hm']
      rw [hdec]
    | default =>
      obtain ⟨w, n, hfields, hn32, hnotin⟩ := hdef info hinfo' hd
      subst hfields
      have henc := encodeDefaultSpec S env idx info w n hinfo' hd
      rw [henc, Option.map_some', Nat.mod_eq_of_lt hn32]
      have hdspec : v.disc_spec = .defaultArm := hiff.mp hd
      have hshape := validate_ok_shape S hval v (List.getElem?_mem hv)
        (by simp [isDefaultArm, hdspec])
      obtain ⟨t, ht⟩ := defaultArmShapeOk_spec v hshape
      have hasty : (Val.vint w n).hasTy t = true :=
        valsMatch_single _ _ (by rw [ht] at hm; exact hm)
      cases t with
      | str => simp [Val.hasTy] at hasty
      | uint w' =>
        have hww : w = w' ∧ n < 2 ^ w' := by
          simpa [Val.hasTy] using hasty
        obtain ⟨rfl, hn⟩ := hww
        have hdec := decodeDefaultSpec S env n idx w v hv hdspec ht hval
          hnotin
        rw [Nat.mod_eq_of_lt hn] at hdec
        rw [hdec]

/-- C1 witness (for the amended round-trip): the default-arm value
`Variant4(7)` of the test schema — 7 collides with no normal discriminant —
round-trips through encode and decode. -/
theorem roundtrip_witness :
    (encode testSchema testEnv ⟨3, [.vint 8 7]⟩).map
        (decode testSchema testEnv) =
      some (.ok ⟨3, [.vint 8 7]⟩) :=
  roundtrip testSchema testEnv ⟨3, [.vint 8 7]⟩ rfl (by decide) (by decide)
    (fun _ _ _ => ⟨8, 7, rfl, by decide, by decide⟩)

end XdrEnum
